import Mathlib

/-!
# Verification of the AI-highlight anchoring subsystem of Paper-Reader

Shallow embedding of the text normalizer, page text index builder, snippet
locator, anchoring orchestrator filter, highlight ingestion parser and topic
sanitizer of the Paper-Reader repository, together with proofs or refutations
of the specification's claims about them.

Strings are modelled as `List Char`.  JavaScript `-1` sentinels and signed
index arithmetic are modelled with `Int`, and array accesses with an
`Option`-returning guarded lookup, exactly where the original code guards
them.
-/

namespace PaperReader

/-! ## Text Normalizer (src/components/Reader.tsx, `normalizeChar`) -/

/-- The `LIGATURES` table of `Reader.tsx`: maps a ligature glyph to its
expanded letter sequence; every other character expands to itself. -/
def ligatureExpand (c : Char) : List Char :=
  if c = 'ﬀ' then ['f', 'f']
  else if c = 'ﬁ' then ['f', 'i']
  else if c = 'ﬂ' then ['f', 'l']
  else if c = 'ﬃ' then ['f', 'f', 'i']
  else if c = 'ﬄ' then ['f', 'f', 'l']
  else if c = 'ﬅ' then ['f', 't']
  else if c = 'ﬆ' then ['s', 't']
  else if c = 'Ꜳ' then ['A', 'A']
  else if c = 'Æ' then ['A', 'E']
  else if c = 'ꜳ' then ['a', 'a']
  else [c]

/-- JavaScript `toLowerCase`, modelled on code points: 65–90 is `A`–`Z`,
mapped down by 32 to `a`–`z`; everything else is left unchanged.  (The only
non-ASCII code points JavaScript lowercases differently are discarded by the
subsequent alphanumeric filter, so the model agrees with the code on every
character the pipeline can keep.) -/
def toLowerChar (c : Char) : Char :=
  if 65 ≤ c.toNat ∧ c.toNat ≤ 90 then Char.ofNat (c.toNat + 32) else c

/-- A character kept by the `replace(/[^a-z0-9]/g, '')` filter:
code points 97–122 are `a`–`z`, 48–57 are `0`–`9`. -/
def isKeptChar (c : Char) : Bool :=
  (97 ≤ c.toNat && c.toNat ≤ 122) || (48 ≤ c.toNat && c.toNat ≤ 57)

/-- The `normalizeChar` helper of `Reader.tsx`: ligature expansion, then lowercasing,
then dropping everything that is not an ASCII lowercase letter or digit.
The result is the (possibly empty) list of normalized characters. -/
def normalizeChar (c : Char) : List Char :=
  ((ligatureExpand c).map toLowerChar).filter isKeptChar

/-- String-level normalization `Array.from(s).map(c => normalizeChar(c)).join('')`,
as applied to quote snippets in `attemptAnchorAI`. -/
def normalizeString (s : List Char) : List Char :=
  s.flatMap normalizeChar

theorem ligatureExpand_length_le (c : Char) : (ligatureExpand c).length ≤ 3 := by
  unfold ligatureExpand
  repeat' split
  all_goals simp

theorem normalizeChar_length_le (c : Char) : (normalizeChar c).length ≤ 3 := by
  calc (normalizeChar c).length
      ≤ ((ligatureExpand c).map toLowerChar).length := List.length_filter_le _ _
    _ = (ligatureExpand c).length := List.length_map _ _
    _ ≤ 3 := ligatureExpand_length_le c

theorem mem_normalizeChar_kept {c d : Char} (h : d ∈ normalizeChar c) :
    isKeptChar d = true :=
  List.of_mem_filter h

theorem isKeptChar_bounds {d : Char} (h : isKeptChar d = true) :
    97 ≤ d.toNat ∧ d.toNat ≤ 122 ∨ 48 ≤ d.toNat ∧ d.toNat ≤ 57 := by
  unfold isKeptChar at h
  simp only [Bool.or_eq_true, Bool.and_eq_true, decide_eq_true_eq] at h
  exact h

theorem ligatureExpand_of_small {d : Char} (h : d.toNat < 198) :
    ligatureExpand d = [d] := by
  unfold ligatureExpand
  repeat' split
  all_goals first
    | rfl
    | (rename_i he; exact absurd (he ▸ h) (by decide))

theorem toLowerChar_of_kept {d : Char} (h : isKeptChar d = true) :
    toLowerChar d = d := by
  rcases isKeptChar_bounds h with hb | hb <;>
    · unfold toLowerChar
      rw [if_neg]
      omega

theorem normalizeChar_of_kept {d : Char} (h : isKeptChar d = true) :
    normalizeChar d = [d] := by
  have hsmall : d.toNat < 198 := by
    rcases isKeptChar_bounds h with hb | hb <;> omega
  unfold normalizeChar
  rw [ligatureExpand_of_small hsmall, List.map_singleton, toLowerChar_of_kept h]
  simp [List.filter_singleton, h]

theorem bind_eq_self_of_forall_singleton {α : Type} (f : α → List α)
    (l : List α) (h : ∀ x ∈ l, f x = [x]) : l.flatMap f = l := by
  induction l with
  | nil => rfl
  | cons a t ih =>
    rw [List.flatMap_cons, h a (List.mem_cons_self a t),
      ih (fun x hx => h x (List.mem_cons_of_mem a hx))]
    rfl

theorem normalizeString_idem (s : List Char) :
    normalizeString (normalizeString s) = normalizeString s := by
  unfold normalizeString
  exact bind_eq_self_of_forall_singleton _ _ (fun x hx => by
    rcases List.mem_flatMap.mp hx with ⟨c, _, hc⟩
    exact normalizeChar_of_kept (mem_normalizeChar_kept hc))

/-! ## JavaScript string primitives

`String.prototype.indexOf`, `String.prototype.split`, `String.prototype.trim`
and `Array.prototype` truthy-guarded access, modelled over `List Char`. -/

/-- Occurrence test `occursAt text pat i`: the pattern occurs in the text at position `i`. -/
def occursAt (text pat : List Char) (i : Nat) : Bool :=
  (text.drop i).take pat.length == pat

/-- Search loop for `indexOf`: scans the suffixes of `l`, returning the
absolute position (the counter starts at `base`) of the first suffix that
begins with `pat`, and `-1` if none does. -/
def jsIndexOfAux (pat : List Char) : List Char → Nat → Int
  | [], base => if pat = [] then (base : Int) else -1
  | c :: rest, base =>
    if (c :: rest).take pat.length = pat then (base : Int)
    else jsIndexOfAux pat rest (base + 1)

/-- JavaScript `text.indexOf(pat, start)` (for `start ≤ text.length`, which
holds at every call site): position of the first occurrence of `pat` at or
after `start`, or `-1`. -/
def jsIndexOf (text pat : List Char) (start : Nat) : Int :=
  jsIndexOfAux pat (text.drop start) start

/-- JavaScript `text.includes(sub)`. -/
def jsIncludes (text sub : List Char) : Bool :=
  decide (0 ≤ jsIndexOf text sub 0)

/-- Fuelled splitting loop for `String.prototype.split` with a non-empty
separator; each step removes at least one character, so `s.length + 1` fuel
always suffices. -/
def jsSplitFuel (sep : List Char) : Nat → List Char → List (List Char)
  | 0, s => [s]
  | fuel + 1, s =>
    match jsIndexOf s sep 0 with
    | Int.ofNat i => s.take i :: jsSplitFuel sep fuel (s.drop (i + sep.length))
    | Int.negSucc _ => [s]

/-- JavaScript `s.split(sep)` for a non-empty separator `sep` (every call
site passes a non-empty literal separator). -/
def jsSplit (sep s : List Char) : List (List Char) :=
  jsSplitFuel sep (s.length + 1) s

/-- Characters matched by the regex class `\s` (ASCII range). -/
def isJsWhitespace (c : Char) : Bool :=
  c == ' ' || c == '\t' || c == '\n' || c == '\r' ||
    c.toNat == 11 || c.toNat == 12

/-- JavaScript `s.trim()`. -/
def jsTrim (s : List Char) : List Char :=
  ((s.dropWhile isJsWhitespace).reverse.dropWhile isJsWhitespace).reverse

/-- JavaScript array access `arr[i]` with a signed index, as an `Option`:
`none` models `undefined` (negative or out-of-bounds index).  The original
code always guards the result by truthiness before using it. -/
def arrGet {α : Type} (l : List α) (i : Int) : Option α :=
  if 0 ≤ i then l.get? i.toNat else none

/-! ### Properties of `jsIndexOfAux` / `jsIndexOf` -/

theorem jsIndexOfAux_ge {pat l : List Char} {base j : Nat}
    (h : jsIndexOfAux pat l base = (j : Int)) : base ≤ j := by
  induction l generalizing base with
  | nil =>
    unfold jsIndexOfAux at h
    split at h <;> omega
  | cons c rest ih =>
    unfold jsIndexOfAux at h
    split at h
    · omega
    · have := ih h
      omega

/-- Occurrence predicate `occursAtP text pat i`: propositional form of an occurrence of `pat` at
position `i` of `text`. -/
def occursAtP (text pat : List Char) (i : Nat) : Prop :=
  (text.drop i).take pat.length = pat

instance (text pat : List Char) (i : Nat) : Decidable (occursAtP text pat i) := by
  unfold occursAtP
  infer_instance

theorem jsIndexOfAux_cases (pat l : List Char) (base : Nat) :
    jsIndexOfAux pat l base = -1 ∨ ∃ j : Nat, jsIndexOfAux pat l base = (j : Int) := by
  induction l generalizing base with
  | nil =>
    unfold jsIndexOfAux
    split
    · exact Or.inr ⟨base, rfl⟩
    · exact Or.inl rfl
  | cons c rest ih =>
    unfold jsIndexOfAux
    split
    · exact Or.inr ⟨base, rfl⟩
    · exact ih (base + 1)

theorem jsIndexOfAux_sound {pat l : List Char} {base j : Nat}
    (h : jsIndexOfAux pat l base = (j : Int)) :
    (l.drop (j - base)).take pat.length = pat := by
  induction l generalizing base with
  | nil =>
    unfold jsIndexOfAux at h
    split at h
    · rename_i hp
      have hbj : base = j := by omega
      simp [hp]
    · omega
  | cons c rest ih =>
    unfold jsIndexOfAux at h
    split at h
    · rename_i ht
      have hbj : base = j := by omega
      subst hbj
      simpa using ht
    · have hge := jsIndexOfAux_ge h
      have hrec := ih h
      have hj : j - base = (j - (base + 1)) + 1 := by omega
      rw [hj, List.drop_succ_cons]
      exact hrec

theorem jsIndexOfAux_minimal {pat l : List Char} {base j : Nat}
    (h : jsIndexOfAux pat l base = (j : Int)) :
    ∀ k, k < j - base → ¬ (l.drop k).take pat.length = pat := by
  induction l generalizing base with
  | nil =>
    unfold jsIndexOfAux at h
    split at h
    · intro k hk
      omega
    · omega
  | cons c rest ih =>
    unfold jsIndexOfAux at h
    split at h
    · intro k hk
      omega
    · rename_i ht
      have hge := jsIndexOfAux_ge h
      intro k hk
      match k with
      | 0 => simpa using ht
      | k' + 1 =>
        rw [List.drop_succ_cons]
        exact ih h k' (by omega)

theorem jsIndexOfAux_found {pat l : List Char} {k : Nat}
    (hk : (l.drop k).take pat.length = pat) (base : Nat) :
    ∃ j : Nat, jsIndexOfAux pat l base = (j : Int) ∧ j ≤ base + k := by
  induction l generalizing base k with
  | nil =>
    have hp : pat = [] := by
      simpa using hk.symm
    subst hp
    exact ⟨base, by simp [jsIndexOfAux], by omega⟩
  | cons c rest ih =>
    unfold jsIndexOfAux
    split
    · exact ⟨base, rfl, by omega⟩
    · rename_i ht
      match k with
      | 0 => exact absurd (by simpa using hk) ht
      | k' + 1 =>
        rw [List.drop_succ_cons] at hk
        obtain ⟨j, hj, hjle⟩ := ih hk (base + 1)
        exact ⟨j, hj, by omega⟩

theorem jsIndexOf_ge {t pat : List Char} {s j : Nat}
    (h : jsIndexOf t pat s = (j : Int)) : s ≤ j :=
  jsIndexOfAux_ge h

theorem jsIndexOf_sound {t pat : List Char} {s j : Nat}
    (h : jsIndexOf t pat s = (j : Int)) : occursAtP t pat j := by
  have hge := jsIndexOfAux_ge h
  have hs := jsIndexOfAux_sound h
  unfold occursAtP
  rw [List.drop_drop] at hs
  have hss : s + (j - s) = j := by omega
  rwa [hss] at hs

theorem jsIndexOf_minimal {t pat : List Char} {s j : Nat}
    (h : jsIndexOf t pat s = (j : Int)) :
    ∀ k, s ≤ k → k < j → ¬ occursAtP t pat k := by
  intro k hsk hkj hocc
  have hmin := jsIndexOfAux_minimal h (k - s) (by omega)
  apply hmin
  unfold occursAtP at hocc
  rw [List.drop_drop]
  have hss : s + (k - s) = k := by omega
  rwa [hss]

theorem jsIndexOf_found {t pat : List Char} {s k : Nat}
    (hk : occursAtP t pat k) (hsk : s ≤ k) :
    ∃ j : Nat, jsIndexOf t pat s = (j : Int) ∧ j ≤ k := by
  unfold occursAtP at hk
  have hk' : ((t.drop s).drop (k - s)).take pat.length = pat := by
    rw [List.drop_drop]
    have hss : s + (k - s) = k := by omega
    rwa [hss]
  obtain ⟨j, hj, hjle⟩ := jsIndexOfAux_found hk' s
  exact ⟨j, hj, by omega⟩

theorem jsIndexOf_cases (t pat : List Char) (s : Nat) :
    jsIndexOf t pat s = -1 ∨ ∃ j : Nat, jsIndexOf t pat s = (j : Int) :=
  jsIndexOfAux_cases pat (t.drop s) s

theorem occursAtP_fits {t pat : List Char} {j : Nat} (h : occursAtP t pat j)
    (hp : pat ≠ []) : j + pat.length ≤ t.length := by
  unfold occursAtP at h
  have hlen := congrArg List.length h
  simp only [List.length_take, List.length_drop] at hlen
  have hne : pat.length ≠ 0 := fun hz => hp (List.eq_nil_of_length_eq_zero hz)
  omega

/-- The empty pattern occurs at position `0` of every text:
`text.indexOf('') === 0` in JavaScript. -/
theorem jsIndexOf_nil (t : List Char) : jsIndexOf t [] 0 = 0 := by
  cases t <;> rfl

/-! ## Snippet Locator (src/components/Reader.tsx, `attemptAnchorAI`)

The per-note matching logic of `attemptAnchorAI`, lines 252–308: given the
page's normalized stream `fullPageText`, its run map `charMap`, and the
note's `quote`, compute the resolved inclusive span range
`(min startSpanIndex endSpanIndex, max startSpanIndex endSpanIndex)` or
`none`.  The `-1` sentinels of the mutable `startSpanIndex`/`endSpanIndex`
variables are modelled with `Int`. -/

/-- The literal two-part quote separator `' ... '`. -/
def SEP : List Char := [' ', '.', '.', '.', ' ']

/-- Final gate of the matching loop:
`if (startSpanIndex !== -1 && endSpanIndex !== -1)` then the spans from
`min` to `max` are highlighted. -/
def mkRange (s e : Int) : Option (Nat × Nat) :=
  if s ≠ -1 ∧ e ≠ -1 then some ((min s e).toNat, (max s e).toNat) else none

/-- A `charMap` entry read through a truthiness guard:
`const e = charMap[i]; if (e) v = e.spanIndex;` leaves `v` at `-1` when the
entry is absent. -/
def entryOr (m : List Nat) (i : Int) : Int :=
  match arrGet m i with
  | some e => (e : Int)
  | none => -1

/-- The snippet-locator body of `attemptAnchorAI` for one note.  Returns the
inclusive span range `(first, last)` that would be highlighted, or `none`
when the note is left untouched. -/
def locateQuote (fullPageText : List Char) (charMap : List Nat)
    (quote : List Char) : Option (Nat × Nat) :=
  if jsIncludes quote SEP then
    let parts := jsSplit SEP quote
    let startSnippet := normalizeString (parts.getD 0 [])
    let endSnippet := normalizeString (parts.getD 1 [])
    if startSnippet = [] ∧ endSnippet = [] then none
    else
      let startIndex : Int :=
        if startSnippet ≠ [] then jsIndexOf fullPageText startSnippet 0 else -1
      let startSpanIndex : Int :=
        if startIndex ≠ -1 then entryOr charMap startIndex else -1
      let endSpanIndex : Int :=
        if startIndex ≠ -1 ∧ endSnippet ≠ [] then
          let endIndexSearch :=
            jsIndexOf fullPageText endSnippet
              (startIndex + startSnippet.length).toNat
          if endIndexSearch ≠ -1 then
            entryOr charMap (endIndexSearch + endSnippet.length - 1)
          else -1
        else -1
      let endSpanIndex' : Int :=
        if startSpanIndex ≠ -1 ∧ endSpanIndex = -1 ∧ startIndex ≠ -1 then
          match arrGet charMap (startIndex + startSnippet.length - 1) with
          | some e => (e : Int)
          | none => endSpanIndex
        else endSpanIndex
      mkRange startSpanIndex endSpanIndex'
  else
    let cleanQuote := normalizeString quote
    let idx := jsIndexOf fullPageText cleanQuote 0
    if idx ≠ -1 then
      let endIdx := idx + cleanQuote.length - 1
      match arrGet charMap idx, arrGet charMap endIdx with
      | some s, some e =>
        some ((min (s : Int) (e : Int)).toNat, (max (s : Int) (e : Int)).toNat)
      | some _, none => none
      | none, some _ => none
      | none, none => none
    else none

/-! ## Page Text Index Builder (src/components/Reader.tsx, lines 236–250)

```
let fullPageText = ""; const charMap = [];
spans.forEach((span, idx) => {
  for (const char of Array.from(span.textContent || "")) {
    const norm = normalizeChar(char);
    if (norm) for (const n of Array.from(norm)) {
      fullPageText += n; charMap.push({ spanIndex: idx });
    }
  }
});
```
modelled as left folds over the enumerated runs, their characters, and each
character's normalized expansion.  (The `if (norm)` truthiness test only
skips the empty expansion, whose inner loop is a no-op anyway.) -/

/-- Builds the page's normalized character stream and the parallel run map. -/
def buildPageIndex (runs : List (List Char)) : List Char × List Nat :=
  runs.enum.foldl
    (fun acc p =>
      p.2.foldl
        (fun acc2 ch =>
          (normalizeChar ch).foldl
            (fun acc3 n => (acc3.1 ++ [n], acc3.2 ++ [p.1])) acc2)
        acc)
    ([], [])

/-! ## Anchoring Orchestrator (src/components/Reader.tsx, lines 203–212, 252–322)

The per-pass effect on the note collection: notes of the rendered page with
empty `highlightAreas` and a non-empty `quote` are run through the Snippet
Locator; on success the note is re-persisted with one `HighlightArea` per
span of the resolved range (`spans.slice(first, last + 1)`), on failure —
and for every other note — the note is left untouched.  On-screen rectangle
geometry is abstracted as a function from span index to `HighlightArea`
(rectangles are read from the live DOM, outside the pure core). -/

/-- Percentage-relative highlight geometry; JavaScript numbers modelled as
rationals. -/
structure HighlightArea where
  x : ℚ
  y : ℚ
  width : ℚ
  height : ℚ
deriving DecidableEq

/-- Display color of a note (`types.ts`). -/
inductive NoteColor
  | yellow
  | green
  | blue
  | red
deriving DecidableEq

/-- A `Note` record (`types.ts`), with the fields the anchoring subsystem
reads and writes. -/
structure Note where
  id : List Char
  paperId : List Char
  pageNumber : Nat
  quote : List Char
  comment : List Char
  tags : List (List Char)
  highlightAreas : List HighlightArea
  createdAt : Nat
  color : NoteColor
deriving DecidableEq

/-- The `unanchoredNotes` filter predicate of `attemptAnchorAI`:
`n.pageNumber === pageNum && (!n.highlightAreas || n.highlightAreas.length === 0) && n.quote`. -/
def needsAnchoring (n : Note) (pageNum : Nat) : Bool :=
  n.pageNumber == pageNum && n.highlightAreas.length == 0 && !(n.quote == [])

/-- One orchestrator step on one note: anchor it if it is pending and the
locator succeeds, otherwise leave it untouched.  `geom i` is the
percentage-relative rectangle of span `i` against the page box. -/
def anchorNote (pageNum : Nat) (fullPageText : List Char) (charMap : List Nat)
    (geom : Nat → HighlightArea) (n : Note) : Note :=
  if needsAnchoring n pageNum then
    match locateQuote fullPageText charMap n.quote with
    | some (first, last) =>
      { n with highlightAreas := (List.range' first (last + 1 - first)).map geom }
    | none => n
  else n

/-- One orchestrator pass over the paper's note collection for one page
render (saves are upserts keyed by note id, so the collection after the pass
is the pointwise image). -/
def anchorPass (pageNum : Nat) (fullPageText : List Char) (charMap : List Nat)
    (geom : Nat → HighlightArea) (notes : List Note) : List Note :=
  notes.map (anchorNote pageNum fullPageText charMap geom)

/-! ## Claim C2 (Text Normalizer output size) -/

/-- C2 counterexample: the claim says one input character yields at most one
normalized character, but the ligature `ﬁ` expands to the two characters
`fi` and both survive lowercasing and filtering. -/
theorem C2_cex_ligature_expands :
    normalizeChar 'ﬁ' = ['f', 'i'] ∧ ¬ (normalizeChar 'ﬁ').length ≤ 1 := by
  constructor
  · rfl
  · decide

/-- C2 (amended): for every single input character, the Text Normalizer
returns zero or more normalized characters, and at most three — the longest
ligature expansions in the table (`ﬃ`, `ﬄ`) emit three characters, so the
bound three replaces the claimed bound one. -/
theorem C2_normalizeChar_length_at_most_three (c : Char) :
    (normalizeChar c).length ≤ 3 := by
  calc (normalizeChar c).length
      ≤ ((ligatureExpand c).map toLowerChar).length := List.length_filter_le _ _
    _ = (ligatureExpand c).length := List.length_map _ _
    _ ≤ 3 := ligatureExpand_length_le c

/-! ## Claim C8 (normalization idempotence) -/

/-- C8: string-level normalization is idempotent — normalizing an
already-normalized string returns it unchanged, because every character of a
normalized string is a kept ASCII lowercase letter or digit and maps to
itself. -/
theorem C8_normalizeString_idempotent (s : List Char) :
    normalizeString (normalizeString s) = normalizeString s := by
  unfold normalizeString
  exact bind_eq_self_of_forall_singleton _ _ (fun x hx => by
    rcases List.mem_flatMap.mp hx with ⟨c, _, hc⟩
    exact normalizeChar_of_kept (mem_normalizeChar_kept hc))

/-! ## Claim C10 (empty single-part quote is safely rejected) -/

theorem locate_single_empty_none (t : List Char) (m : List Nat) (q : List Char)
    (hsep : jsIncludes q SEP = false) (hq : normalizeString q = []) :
    locateQuote t m q = none := by
  unfold locateQuote
  rw [hsep]
  simp only [Bool.false_eq_true, if_false, hq, jsIndexOf_nil]
  have hneg : arrGet m ((0 : Int) + (List.length ([] : List Char) : Int) - 1) = none := by
    simp [arrGet]
  rw [hneg]
  cases arrGet m (0 : Int) <;> simp

/-- C10: a single-part quote whose normalization is empty never anchors: the
empty snippet "matches" at position 0 (`indexOf('') === 0`), but the guarded
run-map lookup at index `0 + 0 - 1 = -1` yields no entry, so the locator
reports no range and the orchestrator leaves the note unchanged — for every
page stream, including the empty one. -/
theorem C10_empty_single_quote_safe (t : List Char) (m : List Nat)
    (q : List Char) (hsep : jsIncludes q SEP = false)
    (hq : normalizeString q = []) :
    locateQuote t m q = none ∧
      ∀ (pg : Nat) (geom : Nat → HighlightArea) (n : Note), n.quote = q →
        anchorNote pg t m geom n = n := by
  have hloc : locateQuote t m q = none := locate_single_empty_none t m q hsep hq
  refine ⟨hloc, fun pg geom n hn => ?_⟩
  unfold anchorNote
  split
  · rw [hn, hloc]
  · rfl

/-! ## Claim C9 (two-part quote with empty start part never anchors) -/

theorem locate_empty_start_none (t : List Char) (m : List Nat) (q : List Char)
    (hsep : jsIncludes q SEP = true)
    (hstart : normalizeString ((jsSplit SEP q).getD 0 []) = [])
    (hend : normalizeString ((jsSplit SEP q).getD 1 []) ≠ []) :
    locateQuote t m q = none := by
  unfold locateQuote
  rw [hsep]
  simp only [if_true, hstart]
  rw [if_neg (by simp only [true_and]; exact hend)]
  simp [mkRange]

/-- C9: for a two-part quote whose start part normalizes to the empty string
while the end part does not, the locator reports not-found on every page
stream — the end snippet is never searched on its own (the code sets
`startIndex = -1` for an empty start snippet and every later step is gated
on `startIndex !== -1`), no geometry is produced, and the note is left
unmodified. -/
theorem C9_empty_start_part_never_anchors (t : List Char) (m : List Nat)
    (q : List Char) (hsep : jsIncludes q SEP = true)
    (hstart : normalizeString ((jsSplit SEP q).getD 0 []) = [])
    (hend : normalizeString ((jsSplit SEP q).getD 1 []) ≠ []) :
    locateQuote t m q = none ∧
      ∀ (pg : Nat) (geom : Nat → HighlightArea) (n : Note), n.quote = q →
        anchorNote pg t m geom n = n := by
  have hloc : locateQuote t m q = none :=
    locate_empty_start_none t m q hsep hstart hend
  refine ⟨hloc, fun pg geom n hn => ?_⟩
  unfold anchorNote
  split
  · rw [hn, hloc]
  · rfl

/-- Witness for C10: the quote `"!!"` has no separator and normalizes to the
empty string; on the page stream `"abc"` with run map `[0, 0, 0]` the
locator yields no range. -/
theorem C10_witness :
    jsIncludes ("!!").data SEP = false ∧ normalizeString ("!!").data = [] ∧
      (locateQuote ("abc").data [0, 0, 0] ("!!").data = none ∧
        ∀ (pg : Nat) (geom : Nat → HighlightArea) (n : Note),
          n.quote = ("!!").data →
            anchorNote pg ("abc").data [0, 0, 0] geom n = n) :=
  ⟨by decide, by decide,
    C10_empty_single_quote_safe ("abc").data [0, 0, 0] ("!!").data
      (by decide) (by decide)⟩

/-- Witness for C9: the quote `"!! ... end"` has a separator, its start part
normalizes to the empty string and its end part to `"end"`, which occurs in
the page stream `"theend"` — yet the locator yields no range. -/
theorem C9_witness :
    jsIncludes ("!! ... end").data SEP = true ∧
      normalizeString ((jsSplit SEP ("!! ... end").data).getD 0 []) = [] ∧
      normalizeString ((jsSplit SEP ("!! ... end").data).getD 1 []) ≠ [] ∧
      occursAtP ("theend").data
        (normalizeString ((jsSplit SEP ("!! ... end").data).getD 1 [])) 3 ∧
      (locateQuote ("theend").data [0, 0, 0, 1, 1, 1] ("!! ... end").data
          = none ∧
        ∀ (pg : Nat) (geom : Nat → HighlightArea) (n : Note),
          n.quote = ("!! ... end").data →
            anchorNote pg ("theend").data [0, 0, 0, 1, 1, 1] geom n = n) :=
  ⟨by decide, by decide, by decide, by decide,
    C9_empty_start_part_never_anchors ("theend").data [0, 0, 0, 1, 1, 1]
      ("!! ... end").data (by decide) (by decide) (by decide)⟩

/-! ## Claim C4 (anchored notes are never re-processed) -/

theorem mkRange_le {s e : Int} {f l : Nat} (h : mkRange s e = some (f, l)) :
    f ≤ l := by
  unfold mkRange at h
  split at h
  · simp only [Option.some.injEq, Prod.mk.injEq] at h
    obtain ⟨hf, hl⟩ := h
    subst hf
    subst hl
    exact Int.toNat_le_toNat min_le_max
  · exact absurd h (by simp)

/-- Every range the locator resolves is well-ordered: the code takes
`Math.min`/`Math.max` of the two span indices. -/
theorem locateQuote_fst_le_snd {t : List Char} {m : List Nat} {q : List Char}
    {f l : Nat} (h : locateQuote t m q = some (f, l)) : f ≤ l := by
  unfold locateQuote at h
  split at h
  · dsimp only at h
    split at h
    · exact absurd h (by simp)
    · exact mkRange_le h
  · dsimp only at h
    split at h
    · split at h
      · simp only [Option.some.injEq, Prod.mk.injEq] at h
        obtain ⟨hf, hl⟩ := h
        subst hf
        subst hl
        exact Int.toNat_le_toNat min_le_max
      all_goals exact absurd h (by simp)
    · exact absurd h (by simp)

theorem anchorNote_of_anchored (pg : Nat) (t : List Char) (m : List Nat)
    (geom : Nat → HighlightArea) (n : Note) (h : n.highlightAreas ≠ []) :
    anchorNote pg t m geom n = n := by
  have hlen : n.highlightAreas.length ≠ 0 :=
    fun hz => h (List.eq_nil_of_length_eq_zero hz)
  unfold anchorNote
  rw [if_neg (by simp [needsAnchoring, hlen])]

theorem anchorNote_idem (pg : Nat) (t : List Char) (m : List Nat)
    (geom : Nat → HighlightArea) (x : Note) :
    anchorNote pg t m geom (anchorNote pg t m geom x) =
      anchorNote pg t m geom x := by
  by_cases hna : needsAnchoring x pg = true
  · cases hloc : locateQuote t m x.quote with
    | none =>
      have h1 : anchorNote pg t m geom x = x := by
        unfold anchorNote
        rw [if_pos hna, hloc]
      rw [h1, h1]
    | some fl =>
      obtain ⟨f, l⟩ := fl
      have hle := locateQuote_fst_le_snd hloc
      have h1 : anchorNote pg t m geom x =
          { x with highlightAreas := (List.range' f (l + 1 - f)).map geom } := by
        unfold anchorNote
        rw [if_pos hna, hloc]
      rw [h1]
      apply anchorNote_of_anchored
      have hlen : ((List.range' f (l + 1 - f)).map geom).length = l + 1 - f := by
        simp [List.length_range']
      intro hnil
      have h2 : (List.range' f (l + 1 - f)).map geom = [] := hnil
      rw [h2] at hlen
      simp only [List.length_nil] at hlen
      omega
  · have h1 : anchorNote pg t m geom x = x := by
      unfold anchorNote
      rw [if_neg hna]
    rw [h1, h1]

/-- C4: a note with non-empty `highlightAreas` is never processed by an
orchestrator pass — for every page stream, run map and geometry provider it
is returned unchanged (so the Snippet Locator's inputs are irrelevant to it,
and it is never re-persisted with new data) — and a second orchestrator pass
over any note collection is a no-op on the result of the first. -/
theorem C4_anchored_note_never_reprocessed (pg : Nat) (n : Note)
    (h : n.highlightAreas ≠ []) :
    (∀ (t : List Char) (m : List Nat) (geom : Nat → HighlightArea),
        anchorNote pg t m geom n = n) ∧
      (∀ (t : List Char) (m : List Nat) (geom : Nat → HighlightArea)
          (notes : List Note),
        anchorPass pg t m geom (anchorPass pg t m geom notes) =
          anchorPass pg t m geom notes) := by
  constructor
  · exact fun t m geom => anchorNote_of_anchored pg t m geom n h
  · intro t m geom notes
    unfold anchorPass
    rw [List.map_map]
    exact List.map_congr_left (fun x _ => anchorNote_idem pg t m geom x)

/-- Witness for C4: a concrete already-anchored note is untouched by a pass,
and the pass is idempotent. -/
theorem C4_witness :
    (({ id := [], paperId := [], pageNumber := 1, quote := ("hi").data,
        comment := [], tags := [], highlightAreas := [⟨1, 2, 3, 4⟩],
        createdAt := 0, color := NoteColor.yellow } : Note).highlightAreas ≠ []) ∧
      ((∀ (t : List Char) (m : List Nat) (geom : Nat → HighlightArea),
          anchorNote 1 t m geom
            { id := [], paperId := [], pageNumber := 1, quote := ("hi").data,
              comment := [], tags := [], highlightAreas := [⟨1, 2, 3, 4⟩],
              createdAt := 0, color := NoteColor.yellow } =
            { id := [], paperId := [], pageNumber := 1, quote := ("hi").data,
              comment := [], tags := [], highlightAreas := [⟨1, 2, 3, 4⟩],
              createdAt := 0, color := NoteColor.yellow }) ∧
        (∀ (t : List Char) (m : List Nat) (geom : Nat → HighlightArea)
            (notes : List Note),
          anchorPass 1 t m geom (anchorPass 1 t m geom notes) =
            anchorPass 1 t m geom notes)) :=
  ⟨by simp,
    C4_anchored_note_never_reprocessed 1
      { id := [], paperId := [], pageNumber := 1, quote := ("hi").data,
        comment := [], tags := [], highlightAreas := [⟨1, 2, 3, 4⟩],
        createdAt := 0, color := NoteColor.yellow } (by simp)⟩

/-! ## Claim C6 (Page Text Index Builder) -/

theorem foldl_append_pair {α : Type} (l : List α) (idx : Nat)
    (acc : List α × List Nat) :
    l.foldl (fun a n => (a.1 ++ [n], a.2 ++ [idx])) acc
      = (acc.1 ++ l, acc.2 ++ List.replicate l.length idx) := by
  induction l generalizing acc with
  | nil => simp
  | cons c rest ih =>
    simp only [List.foldl_cons]
    rw [ih]
    simp [List.replicate_succ]

theorem runFold_eq (run : List Char) (idx : Nat) (acc : List Char × List Nat) :
    run.foldl
        (fun acc2 ch =>
          (normalizeChar ch).foldl
            (fun a n => (a.1 ++ [n], a.2 ++ [idx])) acc2)
        acc
      = (acc.1 ++ normalizeString run,
          acc.2 ++ List.replicate (normalizeString run).length idx) := by
  induction run generalizing acc with
  | nil => simp [normalizeString]
  | cons c rest ih =>
    simp only [List.foldl_cons]
    rw [foldl_append_pair, ih]
    simp only [normalizeString, List.flatMap_cons, List.length_append,
      List.replicate_add, List.append_assoc, Prod.mk.injEq]

theorem pageFold_eq (runs : List (List Char)) (k : Nat)
    (acc : List Char × List Nat) :
    (List.enumFrom k runs).foldl
        (fun acc p =>
          p.2.foldl
            (fun acc2 ch =>
              (normalizeChar ch).foldl
                (fun a n => (a.1 ++ [n], a.2 ++ [p.1])) acc2)
            acc)
        acc
      = (acc.1 ++ (runs.map normalizeString).flatten,
          acc.2 ++ ((List.enumFrom k runs).map
            (fun p => List.replicate (normalizeString p.2).length p.1)).flatten) := by
  induction runs generalizing k acc with
  | nil => simp
  | cons r rest ih =>
    simp only [List.enumFrom, List.foldl_cons, List.map_cons, List.flatten]
    rw [runFold_eq, ih]
    simp

theorem buildPageIndex_fst (runs : List (List Char)) :
    (buildPageIndex runs).1 = (runs.map normalizeString).flatten := by
  unfold buildPageIndex
  rw [List.enum, pageFold_eq]
  simp

theorem buildPageIndex_snd (runs : List (List Char)) :
    (buildPageIndex runs).2 = (runs.enum.map
      (fun p => List.replicate (normalizeString p.2).length p.1)).flatten := by
  unfold buildPageIndex
  rw [List.enum, pageFold_eq]
  simp [List.enum]

theorem join_replicate_length (runs : List (List Char)) (k : Nat) :
    (((List.enumFrom k runs).map
        (fun p => List.replicate (normalizeString p.2).length p.1)).flatten).length
      = ((runs.map normalizeString).flatten).length := by
  induction runs generalizing k with
  | nil => simp
  | cons r rest ih =>
    simp only [List.enumFrom, List.map_cons, List.flatten]
    simp [ih (k + 1)]

theorem buildPageIndex_length_eq (runs : List (List Char)) :
    (buildPageIndex runs).1.length = (buildPageIndex runs).2.length := by
  rw [buildPageIndex_fst, buildPageIndex_snd, List.enum,
    join_replicate_length]

/-- C6: the Page Text Index Builder emits one normalized page string and a
run map of exactly the same length; the string is the in-order concatenation
of the runs' normalizations (runs in their given order, characters within a
run in order, each source character contributing its zero-or-more normalized
characters), and position `i` of the run map carries the index of the run
whose character produced position `i` of the string — the map is the
concatenation, run by run, of blocks repeating that run's index once per
normalized character. -/
theorem C6_buildPageIndex_spec (runs : List (List Char)) :
    (buildPageIndex runs).1 = (runs.map normalizeString).flatten ∧
      (buildPageIndex runs).2 = (runs.enum.map
        (fun p => List.replicate (normalizeString p.2).length p.1)).flatten ∧
      (buildPageIndex runs).1.length = (buildPageIndex runs).2.length :=
  ⟨buildPageIndex_fst runs, buildPageIndex_snd runs,
    buildPageIndex_length_eq runs⟩

/-! ## Claim C3 (end-snippet failure falls back to the start match's span) -/

theorem arrGet_ofNat {α : Type} (l : List α) (n : Nat) :
    arrGet l (n : Int) = l.get? n := by
  simp [arrGet]

theorem entryOr_of_some {m : List Nat} {i : Int} {e : Nat}
    (h : arrGet m i = some e) : entryOr m i = (e : Int) := by
  unfold entryOr
  rw [h]

/-- Evaluation of the two-part branch of the locator when the start snippet
is found and the end-snippet search is skipped (empty end part) or fails:
the resolved range is built from the run-map entries at the start match's
first and last character. -/
theorem locateQuote_two_part_fallback_eval {t : List Char} {m : List Nat}
    {q : List Char} {i a b : Nat}
    (hsep : jsIncludes q SEP = true)
    (hss : normalizeString ((jsSplit SEP q).getD 0 []) ≠ [])
    (hfound : jsIndexOf t (normalizeString ((jsSplit SEP q).getD 0 [])) 0 = (i : Int))
    (hendcase : normalizeString ((jsSplit SEP q).getD 1 []) = [] ∨
      jsIndexOf t (normalizeString ((jsSplit SEP q).getD 1 []))
        (i + (normalizeString ((jsSplit SEP q).getD 0 [])).length) = -1)
    (ha : m.get? i = some a)
    (hb : m.get? (i + (normalizeString ((jsSplit SEP q).getD 0 [])).length - 1) = some b) :
    locateQuote t m q = some (min a b, max a b) := by
  have hlen1 : 1 ≤ (normalizeString ((jsSplit SEP q).getD 0 [])).length :=
    List.length_pos.mpr hss
  unfold locateQuote
  rw [hsep, if_pos rfl]
  dsimp only
  rw [if_neg (fun hc => hss hc.1)]
  rw [if_pos hss, hfound]
  rw [if_pos (show (i : Int) ≠ -1 by omega)]
  rw [entryOr_of_some (show arrGet m (i : Int) = some a by rw [arrGet_ofNat]; exact ha)]
  have hcollapse : (if (i : Int) ≠ -1 ∧
        normalizeString ((jsSplit SEP q).getD 1 []) ≠ [] then
      if jsIndexOf t (normalizeString ((jsSplit SEP q).getD 1 []))
            ((i : Int) +
              ((normalizeString ((jsSplit SEP q).getD 0 [])).length : Int)).toNat ≠ -1 then
        entryOr m
          (jsIndexOf t (normalizeString ((jsSplit SEP q).getD 1 []))
              ((i : Int) +
                ((normalizeString ((jsSplit SEP q).getD 0 [])).length : Int)).toNat +
            ((normalizeString ((jsSplit SEP q).getD 1 [])).length : Int) - 1)
      else -1
    else -1) = -1 := by
    by_cases hes : normalizeString ((jsSplit SEP q).getD 1 []) = []
    · rw [if_neg (fun hc => hc.2 hes)]
    · have hfail := hendcase.resolve_left hes
      rw [if_pos ⟨by omega, hes⟩]
      rw [show ((i : Int) +
          ((normalizeString ((jsSplit SEP q).getD 0 [])).length : Int)).toNat =
          i + (normalizeString ((jsSplit SEP q).getD 0 [])).length by omega]
      rw [hfail]
      simp
  rw [hcollapse]
  rw [if_pos ⟨show (a : Int) ≠ -1 by omega, rfl, show (i : Int) ≠ -1 by omega⟩]
  rw [show ((i : Int) +
      ((normalizeString ((jsSplit SEP q).getD 0 [])).length : Int) - 1) =
      ((i + (normalizeString ((jsSplit SEP q).getD 0 [])).length - 1 : Nat) : Int)
    by omega]
  rw [arrGet_ofNat, hb]
  unfold mkRange
  rw [if_pos ⟨show (a : Int) ≠ -1 by omega, show (b : Int) ≠ -1 by omega⟩]
  simp [← Nat.cast_min, ← Nat.cast_max, Int.toNat_ofNat]

theorem runMap_blocks_pairwise (runs : List (List Char)) (k : Nat) :
    List.Pairwise (· ≤ ·)
      (((List.enumFrom k runs).map
        (fun p => List.replicate (normalizeString p.2).length p.1)).flatten) ∧
    ∀ x ∈ (((List.enumFrom k runs).map
        (fun p => List.replicate (normalizeString p.2).length p.1)).flatten),
      k ≤ x := by
  induction runs generalizing k with
  | nil => simp
  | cons r rest ih =>
    obtain ⟨hs, hbnd⟩ := ih (k + 1)
    simp only [List.enumFrom, List.map_cons, List.flatten_cons]
    constructor
    · rw [List.pairwise_append]
      refine ⟨?_, hs, ?_⟩
      · rw [List.pairwise_replicate]
        right
        exact le_refl k
      · intro x hx y hy
        have hxk : x = k := List.eq_of_mem_replicate hx
        have hyk := hbnd y hy
        omega
    · intro x hx
      rcases List.mem_append.mp hx with hx | hx
      · exact le_of_eq (List.eq_of_mem_replicate hx).symm
      · have := hbnd x hx
        omega

/-- The run map is sorted: later characters of the page stream come from
runs with larger (or equal) indices. -/
theorem runMap_pairwise (runs : List (List Char)) :
    List.Pairwise (· ≤ ·) (buildPageIndex runs).2 := by
  rw [buildPageIndex_snd, List.enum]
  exact (runMap_blocks_pairwise runs 0).1

theorem pairwise_get?_le {m : List Nat} (hp : List.Pairwise (· ≤ ·) m)
    {i j a b : Nat} (hij : i ≤ j) (ha : m.get? i = some a)
    (hb : m.get? j = some b) : a ≤ b := by
  rcases Nat.eq_or_lt_of_le hij with heq | hlt
  · subst heq
    rw [ha] at hb
    exact le_of_eq (Option.some.inj hb)
  · obtain ⟨hi, hga⟩ := List.get?_eq_some.mp ha
    obtain ⟨hj, hgb⟩ := List.get?_eq_some.mp hb
    have h := List.pairwise_iff_get.mp hp ⟨i, hi⟩ ⟨j, hj⟩ (by simpa using hlt)
    rw [hga, hgb] at h
    exact h

/-- C3: for every page stream (built from its runs) and every two-part quote
whose normalized start part is non-empty and found at position `i`: when the
end part is empty or the end-snippet search after the start match fails, the
resolved range is exactly the span of the start match alone — from the run
holding the start match's first character (run-map entry at `i`) to the run
holding its last character (entry at `i + |start| - 1`). -/
theorem C3_end_fallback_spans_start_match (runs : List (List Char))
    (q : List Char) {i : Nat}
    (hsep : jsIncludes q SEP = true)
    (hss : normalizeString ((jsSplit SEP q).getD 0 []) ≠ [])
    (hfound : jsIndexOf (buildPageIndex runs).1
      (normalizeString ((jsSplit SEP q).getD 0 [])) 0 = (i : Int))
    (hendcase : normalizeString ((jsSplit SEP q).getD 1 []) = [] ∨
      jsIndexOf (buildPageIndex runs).1
        (normalizeString ((jsSplit SEP q).getD 1 []))
        (i + (normalizeString ((jsSplit SEP q).getD 0 [])).length) = -1) :
    ∃ a b : Nat,
      (buildPageIndex runs).2.get? i = some a ∧
      (buildPageIndex runs).2.get?
        (i + (normalizeString ((jsSplit SEP q).getD 0 [])).length - 1) = some b ∧
      locateQuote (buildPageIndex runs).1 (buildPageIndex runs).2 q
        = some (a, b) := by
  have hocc := jsIndexOf_sound hfound
  have hfit := occursAtP_fits hocc hss
  have hlen1 : 1 ≤ (normalizeString ((jsSplit SEP q).getD 0 [])).length :=
    List.length_pos.mpr hss
  have hmlen : (buildPageIndex runs).2.length = (buildPageIndex runs).1.length :=
    (buildPageIndex_length_eq runs).symm
  have hi : i < (buildPageIndex runs).2.length := by omega
  have hj : i + (normalizeString ((jsSplit SEP q).getD 0 [])).length - 1
      < (buildPageIndex runs).2.length := by omega
  have ha := List.get?_eq_get hi
  have hb := List.get?_eq_get hj
  refine ⟨_, _, ha, hb, ?_⟩
  have hab := pairwise_get?_le (runMap_pairwise runs) (by omega) ha hb
  rw [locateQuote_two_part_fallback_eval hsep hss hfound hendcase ha hb,
    min_eq_left hab, max_eq_right hab]

/-- Witness for C3: on the page runs `["Recent ", "work ", "has "]` the
quote `"Recent work ... zzz"` finds its start part at position 0, the end
search fails, and the locator resolves runs 0–1 (the start match's span). -/
theorem C3_witness :
    ∃ a b : Nat,
      (buildPageIndex [("Recent ").data, ("work ").data, ("has ").data]).2.get? 0
          = some a ∧
        (buildPageIndex [("Recent ").data, ("work ").data, ("has ").data]).2.get?
          (0 + (normalizeString
            ((jsSplit SEP ("Recent work ... zzz").data).getD 0 [])).length - 1)
          = some b ∧
        locateQuote
          (buildPageIndex [("Recent ").data, ("work ").data, ("has ").data]).1
          (buildPageIndex [("Recent ").data, ("work ").data, ("has ").data]).2
          ("Recent work ... zzz").data = some (a, b) :=
  C3_end_fallback_spans_start_match
    [("Recent ").data, ("work ").data, ("has ").data]
    ("Recent work ... zzz").data (by decide) (by decide) (by decide)
    (Or.inr (by decide))

/-! ## Claim C5 (first-occurrence determinism) -/

theorem locate_single_eval {t : List Char} {m : List Nat} {q : List Char}
    {a b : Nat} (hsep : jsIncludes q SEP = false)
    (hloc : locateQuote t m q = some (a, b)) :
    ∃ i : Nat, jsIndexOf t (normalizeString q) 0 = (i : Int) ∧
      ∃ x y : Nat, m.get? i = some x ∧
        m.get? (i + (normalizeString q).length - 1) = some y ∧
        a = min x y ∧ b = max x y := by
  by_cases hq : normalizeString q = []
  · rw [locate_single_empty_none t m q hsep hq] at hloc
    exact absurd hloc (by simp)
  · have hlen1 : 1 ≤ (normalizeString q).length := List.length_pos.mpr hq
    unfold locateQuote at hloc
    rw [hsep] at hloc
    simp only [Bool.false_eq_true, if_false] at hloc
    rcases jsIndexOf_cases t (normalizeString q) 0 with hidx | ⟨i, hidx⟩
    · rw [hidx] at hloc
      simp at hloc
    · rw [hidx] at hloc
      rw [if_pos (show (i : Int) ≠ -1 by omega)] at hloc
      rw [show ((i : Int) + ((normalizeString q).length : Int) - 1) =
          ((i + (normalizeString q).length - 1 : Nat) : Int) by omega] at hloc
      rw [arrGet_ofNat, arrGet_ofNat] at hloc
      refine ⟨i, hidx, ?_⟩
      cases hx : m.get? i with
      | none =>
        rw [hx] at hloc
        cases hy : m.get? (i + (normalizeString q).length - 1) with
        | none => rw [hy] at hloc; simp at hloc
        | some y => rw [hy] at hloc; simp at hloc
      | some x =>
        rw [hx] at hloc
        cases hy : m.get? (i + (normalizeString q).length - 1) with
        | none => rw [hy] at hloc; simp at hloc
        | some y =>
          rw [hy] at hloc
          simp only [Option.some.injEq, Prod.mk.injEq] at hloc
          obtain ⟨hfa, hfb⟩ := hloc
          refine ⟨x, y, rfl, rfl, ?_, ?_⟩
          · rw [← hfa, ← Nat.cast_min, Int.toNat_ofNat]
          · rw [← hfb, ← Nat.cast_max, Int.toNat_ofNat]

theorem locate_two_part_start_found {t : List Char} {m : List Nat}
    {q : List Char} {a b : Nat} (hsep : jsIncludes q SEP = true)
    (hloc : locateQuote t m q = some (a, b)) :
    normalizeString ((jsSplit SEP q).getD 0 []) ≠ [] ∧
      ∃ i : Nat,
        jsIndexOf t (normalizeString ((jsSplit SEP q).getD 0 [])) 0 = (i : Int) := by
  by_cases hss : normalizeString ((jsSplit SEP q).getD 0 []) = []
  · by_cases hes : normalizeString ((jsSplit SEP q).getD 1 []) = []
    · unfold locateQuote at hloc
      rw [hsep, if_pos rfl] at hloc
      dsimp only at hloc
      rw [if_pos ⟨hss, hes⟩] at hloc
      exact absurd hloc (by simp)
    · rw [locate_empty_start_none t m q hsep hss hes] at hloc
      exact absurd hloc (by simp)
  · refine ⟨hss, ?_⟩
    rcases jsIndexOf_cases t (normalizeString ((jsSplit SEP q).getD 0 [])) 0 with
      hidx | ⟨i, hidx⟩
    · unfold locateQuote at hloc
      rw [hsep, if_pos rfl] at hloc
      dsimp only at hloc
      rw [if_neg (fun hc => hss hc.1)] at hloc
      rw [if_pos hss, hidx] at hloc
      rw [if_neg (show ¬((-1 : Int) ≠ -1) by simp)] at hloc
      rw [if_neg (show ¬((-1 : Int) ≠ -1 ∧
        normalizeString ((jsSplit SEP q).getD 1 []) ≠ []) from
        fun hc => hc.1 rfl)] at hloc
      rw [if_neg (fun hc => hc.1 rfl)] at hloc
      unfold mkRange at hloc
      rw [if_neg (fun hc => hc.1 rfl)] at hloc
      exact absurd hloc (by simp)
    · exact ⟨i, hidx⟩

/-- C5: the Snippet Locator is first-occurrence only and deterministic.
Whenever it resolves a range (in particular when the snippet occurs more
than once in the page stream): for a single-part quote the range is computed
from the earliest occurrence of the normalized quote (no earlier position
matches); for a two-part quote the start anchor is the earliest occurrence
of the start snippet and any successful end search returns the earliest
occurrence of the end snippet at or after the end of the start match; and
repeated runs on the same stream and quote return the same result (the
locator is a pure function). -/
theorem C5_first_occurrence_wins :
    (∀ (t : List Char) (m : List Nat) (q : List Char) (a b : Nat),
      jsIncludes q SEP = false →
      locateQuote t m q = some (a, b) →
      ∃ i : Nat, jsIndexOf t (normalizeString q) 0 = (i : Int) ∧
        occursAtP t (normalizeString q) i ∧
        (∀ k, k < i → ¬ occursAtP t (normalizeString q) k) ∧
        ∃ x y : Nat, m.get? i = some x ∧
          m.get? (i + (normalizeString q).length - 1) = some y ∧
          a = min x y ∧ b = max x y) ∧
    (∀ (t : List Char) (m : List Nat) (q : List Char) (a b : Nat),
      jsIncludes q SEP = true →
      locateQuote t m q = some (a, b) →
      ∃ i : Nat,
        jsIndexOf t (normalizeString ((jsSplit SEP q).getD 0 [])) 0 = (i : Int) ∧
        occursAtP t (normalizeString ((jsSplit SEP q).getD 0 [])) i ∧
        (∀ k, k < i → ¬ occursAtP t (normalizeString ((jsSplit SEP q).getD 0 [])) k) ∧
        ∀ e : Nat,
          jsIndexOf t (normalizeString ((jsSplit SEP q).getD 1 []))
            (i + (normalizeString ((jsSplit SEP q).getD 0 [])).length) = (e : Int) →
          occursAtP t (normalizeString ((jsSplit SEP q).getD 1 [])) e ∧
          ∀ k, i + (normalizeString ((jsSplit SEP q).getD 0 [])).length ≤ k → k < e →
            ¬ occursAtP t (normalizeString ((jsSplit SEP q).getD 1 [])) k) ∧
    (∀ (t : List Char) (m : List Nat) (q : List Char),
      locateQuote t m q = locateQuote t m q) := by
  refine ⟨?_, ?_, fun t m q => rfl⟩
  · intro t m q a b hsep hloc
    obtain ⟨i, hidx, hrest⟩ := locate_single_eval hsep hloc
    exact ⟨i, hidx, jsIndexOf_sound hidx,
      fun k hk => jsIndexOf_minimal hidx k (Nat.zero_le k) hk, hrest⟩
  · intro t m q a b hsep hloc
    obtain ⟨hss, i, hidx⟩ := locate_two_part_start_found hsep hloc
    exact ⟨i, hidx, jsIndexOf_sound hidx,
      fun k hk => jsIndexOf_minimal hidx k (Nat.zero_le k) hk,
      fun e he => ⟨jsIndexOf_sound he,
        fun k hk1 hk2 => jsIndexOf_minimal he k hk1 hk2⟩⟩

theorem C5_witness :
    occursAtP ("abcabc").data (normalizeString ("abc").data) 0 ∧
      occursAtP ("abcabc").data (normalizeString ("abc").data) 3 ∧
      locateQuote ("abcabc").data [0, 0, 0, 1, 1, 1] ("abc").data
        = some (0, 0) ∧
      (∃ i : Nat,
        jsIndexOf ("abcabc").data (normalizeString ("abc").data) 0 = (i : Int) ∧
        occursAtP ("abcabc").data (normalizeString ("abc").data) i ∧
        (∀ k, k < i → ¬ occursAtP ("abcabc").data (normalizeString ("abc").data) k) ∧
        ∃ x y : Nat, ([0, 0, 0, 1, 1, 1] : List Nat).get? i = some x ∧
          ([0, 0, 0, 1, 1, 1] : List Nat).get?
            (i + (normalizeString ("abc").data).length - 1) = some y ∧
          0 = min x y ∧ 0 = max x y) :=
  ⟨by decide, by decide, by decide,
    C5_first_occurrence_wins.1 ("abcabc").data [0, 0, 0, 1, 1, 1] ("abc").data
      0 0 (by decide) (by decide)⟩

/-! ## Highlight Ingestion Pipeline (src/lib/ai.ts, `parseHighlightBlocks`)

```
const blocks = text.split('[[HIGHLIGHT]]');
for (const block of blocks) {
  if (!block.includes('[[END]]')) continue;
  const extract = (key) => {
    const match = block.match(new RegExp(`${key}:\\s*(.*?)(?=\\n|$)`, 'i'));
    return match ? match[1].trim() : '';
  };
  highlights.push({ anchorStart: extract('START_SNIPPET').replace(...), ... });
}
```
The regex is modelled for LF-terminated text: find the first case-insensitive
occurrence of `key:`, greedily skip whitespace (`\s*`), capture to the next
newline or the end (`(.*?)(?=\n|$)` with `.` not matching `\n`), and trim. -/

/-- The `[[HIGHLIGHT]]` block delimiter. -/
def HIGHLIGHT_MARK : List Char :=
  ['[', '[', 'H', 'I', 'G', 'H', 'L', 'I', 'G', 'H', 'T', ']', ']']

/-- The `[[END]]` block terminator. -/
def END_MARK : List Char := ['[', '[', 'E', 'N', 'D', ']', ']']

/-- First position at which `pat` occurs case-insensitively (the regex `i`
flag, ASCII case folding). -/
def ciFind (pat : List Char) : List Char → Nat → Option Nat
  | [], i => if pat = [] then some i else none
  | c :: rest, i =>
    if ((c :: rest).take pat.length).map toLowerChar = pat.map toLowerChar
    then some i
    else ciFind pat rest (i + 1)

/-- The `extract` closure of `parseHighlightBlocks`: value of the first
case-insensitive `key:` line of the block, whitespace-skipped and trimmed;
the empty string when the key is absent. -/
def extract (block key : List Char) : List Char :=
  match ciFind (key ++ [':']) block 0 with
  | none => []
  | some i =>
    jsTrim (((block.drop (i + key.length + 1)).dropWhile
      isJsWhitespace).takeWhile (fun c => !(c == '\n')))

/-- The snippet cleanup `replace(/^["']|["']$/g, '')`: strips one leading and one trailing quote
character. -/
def stripQuotes (s : List Char) : List Char :=
  let s1 := match s with
    | [] => ([] : List Char)
    | c :: rest => if c = '"' ∨ c = '\'' then rest else c :: rest
  match s1.getLast? with
  | none => s1
  | some c => if c = '"' ∨ c = '\'' then s1.dropLast else s1

/-- Value of a non-empty ASCII digit string. -/
def digitsVal (l : List Char) : Nat :=
  l.foldl (fun a c => a * 10 + (c.toNat - 48)) 0

/-- The page parse `parseInt(s) || 1`: leading-whitespace-tolerant signed decimal parse,
falling back to `1` for `NaN` (no digits) and for `0` (falsy). -/
def jsParseIntOr1 (s : List Char) : Int :=
  let t := s.dropWhile isJsWhitespace
  let sgn : Int × List Char :=
    match t with
    | c :: r => if c = '-' then (-1, r) else if c = '+' then (1, r) else (1, t)
    | [] => (1, [])
  let digits := sgn.2.takeWhile (fun c => decide (48 ≤ c.toNat ∧ c.toNat ≤ 57))
  if digits = [] then 1
  else if sgn.1 * (digitsVal digits : Int) = 0 then 1
  else sgn.1 * (digitsVal digits : Int)

/-- One parsed highlight record, as pushed by `parseHighlightBlocks`. -/
structure HighlightRecord where
  anchorStart : List Char
  anchorEnd : List Char
  pageNumber : Int
  topic : List Char
  explanation : List Char
  importance : List Char
deriving DecidableEq

/-- Key `START_SNIPPET`. -/
def KEY_START : List Char :=
  ['S', 'T', 'A', 'R', 'T', '_', 'S', 'N', 'I', 'P', 'P', 'E', 'T']

/-- Key `END_SNIPPET`. -/
def KEY_END : List Char :=
  ['E', 'N', 'D', '_', 'S', 'N', 'I', 'P', 'P', 'E', 'T']

/-- Key `PAGE`. -/
def KEY_PAGE : List Char := ['P', 'A', 'G', 'E']

/-- Key `TOPIC`. -/
def KEY_TOPIC : List Char := ['T', 'O', 'P', 'I', 'C']

/-- Key `EXPLANATION`. -/
def KEY_EXPL : List Char :=
  ['E', 'X', 'P', 'L', 'A', 'N', 'A', 'T', 'I', 'O', 'N']

/-- Key `IMPORTANCE`. -/
def KEY_IMP : List Char :=
  ['I', 'M', 'P', 'O', 'R', 'T', 'A', 'N', 'C', 'E']

/-- The record pushed for one block containing `[[END]]`: snippets
quote-stripped, page parsed with fallback 1, square brackets removed from
the topic. -/
def mkRecord (block : List Char) : HighlightRecord where
  anchorStart := stripQuotes (extract block KEY_START)
  anchorEnd := stripQuotes (extract block KEY_END)
  pageNumber := jsParseIntOr1 (extract block KEY_PAGE)
  topic := (extract block KEY_TOPIC).filter (fun c => !(c == '[' || c == ']'))
  explanation := extract block KEY_EXPL
  importance := extract block KEY_IMP

/-- The `parseHighlightBlocks` function of `ai.ts`: split on `[[HIGHLIGHT]]`, skip every
segment without `[[END]]`, push a record for every segment with it. -/
def parseHighlightBlocks (text : List Char) : List HighlightRecord :=
  (jsSplit HIGHLIGHT_MARK text).foldl
    (fun acc block =>
      if jsIncludes block END_MARK then acc ++ [mkRecord block] else acc)
    []

/-! ## Claim C1 (acceptance condition of the ingestion pipeline) -/

theorem foldl_push_if {α β : Type} (p : α → Bool) (f : α → β) (l : List α)
    (init : List β) :
    l.foldl (fun acc x => if p x then acc ++ [f x] else acc) init
      = init ++ (l.filter p).map f := by
  induction l generalizing init with
  | nil => simp
  | cons x rest ih =>
    simp only [List.foldl_cons]
    by_cases hp : p x
    · rw [if_pos hp, ih]
      simp [List.filter_cons, hp]
    · rw [if_neg hp, ih]
      simp [List.filter_cons, hp]

/-- C1 counterexample: the block `"[[HIGHLIGHT]] [[END]]"` contains the end
marker but no snippet fields at all, so both snippets are empty after
stripping — yet `parseHighlightBlocks` still yields one record for it,
refuting the claimed requirement that both snippets be non-empty. -/
theorem C1_cex_empty_snippets_accepted :
    parseHighlightBlocks ("[[HIGHLIGHT]] [[END]]").data
        = [{ anchorStart := [], anchorEnd := [], pageNumber := 1,
             topic := [], explanation := [], importance := [] }] ∧
      (parseHighlightBlocks ("[[HIGHLIGHT]] [[END]]").data).length = 1 := by
  constructor
  · decide
  · decide

/-- C1 (amended): `parseHighlightBlocks` yields exactly one record for a
`[[HIGHLIGHT]]` segment if and only if the segment contains the `[[END]]`
marker — the emptiness of the stripped snippets is not checked — and a
rejected segment does not abort the processing of the remaining segments:
the output is the in-order image of exactly the `[[END]]`-bearing segments. -/
theorem C1_record_iff_end_marker (text : List Char) :
    parseHighlightBlocks text
      = ((jsSplit HIGHLIGHT_MARK text).filter
          (fun b => jsIncludes b END_MARK)).map mkRecord := by
  unfold parseHighlightBlocks
  rw [foldl_push_if]
  simp

/-! ## Topic sanitization (src/unnamed/part_000, `handleUpload`)

```
let topicTag = hl.topic ? hl.topic.trim() : "Insight";
topicTag = topicTag.replace(/[.,;:]$/, '');
if (topicTag.length > 25 || topicTag.split(' ').length > 4) {
  topicTag = "Key Insight";
}
const tags = [topicTag, 'AI-Highlight'];
```
-/

/-- The `"Insight"` default for a falsy (empty) topic. -/
def insightFallback : List Char := ['I', 'n', 's', 'i', 'g', 'h', 't']

/-- The `"Key Insight"` fallback label. -/
def keyInsight : List Char :=
  ['K', 'e', 'y', ' ', 'I', 'n', 's', 'i', 'g', 'h', 't']

/-- The fixed `'AI-Highlight'` tag. -/
def aiHighlightTag : List Char :=
  ['A', 'I', '-', 'H', 'i', 'g', 'h', 'l', 'i', 'g', 'h', 't']

/-- Step `hl.topic ? hl.topic.trim() : "Insight"`. -/
def trimmedTopic (topic : List Char) : List Char :=
  if topic = [] then insightFallback else jsTrim topic

/-- Step `topicTag.replace(/[.,;:]$/, '')`: strips one trailing punctuation
character. -/
def punctStripped (topic : List Char) : List Char :=
  match (trimmedTopic topic).getLast? with
  | none => trimmedTopic topic
  | some c =>
    if c = '.' ∨ c = ',' ∨ c = ';' ∨ c = ':'
    then (trimmedTopic topic).dropLast
    else trimmedTopic topic

/-- The sanitized topic tag: the hard limit replaces an over-long or
many-word topic by the fixed fallback label. -/
def sanitizeTopic (topic : List Char) : List Char :=
  if 25 < (punctStripped topic).length ∨
      4 < (jsSplit [' '] (punctStripped topic)).length
  then keyInsight
  else punctStripped topic

/-- Tag assembly `const tags = [topicTag, 'AI-Highlight'];`. -/
def mkNoteTags (topic : List Char) : List (List Char) :=
  [sanitizeTopic topic, aiHighlightTag]

/-! ## Claim C7 (topic fallback) -/

/-- C7: after trimming (with the `"Insight"` default for an empty topic) and
stripping one trailing punctuation character, a topic longer than 25
characters or splitting into more than 4 space-separated words is replaced
by the fixed label `"Key Insight"` in the note's tag list; a topic within
both limits passes through unchanged, followed by the `'AI-Highlight'`
tag. -/
theorem C7_topic_fallback (topic : List Char) :
    (25 < (punctStripped topic).length ∨
        4 < (jsSplit [' '] (punctStripped topic)).length →
      mkNoteTags topic = [keyInsight, aiHighlightTag]) ∧
    ((punctStripped topic).length ≤ 25 →
      (jsSplit [' '] (punctStripped topic)).length ≤ 4 →
      mkNoteTags topic = [punctStripped topic, aiHighlightTag]) := by
  constructor
  · intro h
    unfold mkNoteTags sanitizeTopic
    rw [if_pos h]
  · intro h1 h2
    unfold mkNoteTags sanitizeTopic
    rw [if_neg (by rintro (h | h) <;> omega)]

/-- Witness for C7: `"Loss Function"` (13 characters, 2 words) passes
through unchanged; the spec's hallucinated run-on topic is replaced by
`"Key Insight"`. -/
theorem C7_witness :
    punctStripped ("Loss Function").data = ("Loss Function").data ∧
      mkNoteTags ("Loss Function").data
        = [("Loss Function").data, aiHighlightTag] ∧
      mkNoteTags
          ("This is a very long hallucinated topic phrase that exceeds limits").data
        = [keyInsight, aiHighlightTag] :=
  ⟨by decide,
    ((C7_topic_fallback ("Loss Function").data).2 (by decide)
        (by decide)).trans (by decide),
    (C7_topic_fallback
        ("This is a very long hallucinated topic phrase that exceeds limits").data).1
      (by decide)⟩

end PaperReader

